import Mathlib

/-!
Verification of the cloudwatch-get log export pipeline
(src/cloudwatch-get/cloudwatch-get.py) against its specification.

The Python source is shallowly embedded: each Python function that the
claims mention is translated into an executable Lean definition of the
same name.  Strings are handled at the level of their character lists
(`List Char`), machine integers as `Int`/`Nat`, optional or absent
dictionary fields as `Option`, and fallible functions return `Except`.
External collaborators (the AWS pagination APIs, the system clock,
`time.mktime` and `strftime` rendering) appear as explicit parameters:
pages arrive as lists of pages, the clock and the local-timezone epoch
conversion are inputs.
-/

namespace CloudwatchGet

/-! ### Filename sanitization (`sanitize_filename_component`, source lines 190-195)

The Python function applies, in order:
  1. `re.sub` replacing every run of slash, backslash, colon or whitespace
     characters by a single underscore,
  2. `re.sub` deleting every character outside the class of ASCII letters,
     digits, dot, underscore and hyphen,
  3. `re.sub` collapsing every run of underscores to a single underscore,
  4. `str.strip` of leading and trailing underscores,
and returns the literal "item" if the result is empty.
-/

/-- Codepoints matched by the regex class backslash-s in CPython for `str`
patterns: the characters for which `Py_UNICODE_ISSPACE` holds. -/
def pySpace (n : Nat) : Bool :=
  n = 9 || n = 10 || n = 11 || n = 12 || n = 13 ||
  n = 28 || n = 29 || n = 30 || n = 31 || n = 32 ||
  n = 133 || n = 160 || n = 5760 || (8192 ≤ n && n ≤ 8202) ||
  n = 8232 || n = 8233 || n = 8239 || n = 8287 || n = 12288

/-- Characters matched by the first regex of `sanitize_filename_component`:
slash (47), backslash (92), colon (58) or whitespace. -/
def sepChar (c : Char) : Bool :=
  c.toNat = 47 || c.toNat = 92 || c.toNat = 58 || pySpace c.toNat

/-- Characters kept by the second regex: the class of ASCII letters, digits,
dot (46), underscore (95) and hyphen (45). -/
def allowedChar (c : Char) : Bool :=
  (65 ≤ c.toNat && c.toNat ≤ 90) || (97 ≤ c.toNat && c.toNat ≤ 122) ||
  (48 ≤ c.toNat && c.toNat ≤ 57) || c.toNat = 46 || c.toNat = 95 || c.toNat = 45

/-- First regex substitution: every maximal run of separator characters
becomes a single underscore.  The Boolean argument records whether the
previous character belonged to a separator run. -/
def collapseSepRuns : List Char → Bool → List Char
  | [], _ => []
  | c :: rest, prevSep =>
    if sepChar c then
      if prevSep then collapseSepRuns rest true
      else '_' :: collapseSepRuns rest true
    else c :: collapseSepRuns rest false

/-- Third regex substitution: every maximal run of underscores becomes a
single underscore.  The Boolean argument records whether the previous
character was an underscore. -/
def collapseUnderscoreRuns : List Char → Bool → List Char
  | [], _ => []
  | c :: rest, prevUnd =>
    if c = '_' then
      if prevUnd then collapseUnderscoreRuns rest true
      else '_' :: collapseUnderscoreRuns rest true
    else c :: collapseUnderscoreRuns rest false

/-- Python `str.strip` with the single strip character underscore: drop all
leading and all trailing underscores. -/
def stripUnderscores (l : List Char) : List Char :=
  ((l.dropWhile (fun c => c = '_')).reverse.dropWhile (fun c => c = '_')).reverse

/-- Embedding of `sanitize_filename_component` (source lines 190-195) on the
character list of the input string. -/
def sanitize_filename_component (l : List Char) : List Char :=
  let s1 := collapseSepRuns l false
  let s2 := s1.filter allowedChar
  let s3 := collapseUnderscoreRuns s2 false
  let s4 := stripUnderscores s3
  if s4 = [] then "item".data else s4

/-- Adjacent characters of a collapsed list never form a double underscore. -/
def noDoubleUnd (a b : Char) : Prop := a ≠ '_' ∨ b ≠ '_'

/-! ### Time window resolution (`resolve_window`, source lines 75-92, and
`local_datetime_to_epoch_ms`, source lines 95-99)

Naive local datetimes are modelled as integer seconds on the local calendar
timeline; `timedelta(hours=12)` subtracts 43200 seconds.  String parsing is
outside this model: the arguments of `resolve_window` are the already-parsed
optional datetimes, and `now` is the resolver's own clock read
(`datetime.now()` truncated to whole seconds).  `time.mktime` is the
order-preserving map from the naive local timeline to epoch seconds, so the
epoch-millisecond conversion takes the epoch-second value as its argument. -/

inductive WindowError
  | fromAfterTo
deriving DecidableEq

/-- The pair (from, to) that the branch cascade of `resolve_window` computes
before its validation check. -/
def resolvedPair : Option Int → Option Int → Int → Int × Int
  | none, none, now => (now - 43200, now)
  | some f, none, now => (f, now)
  | none, some t, _ => (t - 43200, t)
  | some f, some t, _ => (f, t)

/-- Embedding of `resolve_window`: resolve the optional bounds against the
clock read `now`, then fail when the resolved start is strictly after the
resolved end. -/
def resolve_window (fromOpt toOpt : Option Int) (now : Int) :
    Except WindowError (Int × Int) :=
  let p := resolvedPair fromOpt toOpt now
  if p.2 < p.1 then .error .fromAfterTo else .ok p

/-- Embedding of `local_datetime_to_epoch_ms`: `s` is the epoch-second value
`time.mktime` returns for the naive datetime; the result is milliseconds,
with 999 added when `end_of_second` is set. -/
def local_datetime_to_epoch_ms (s : Int) (endOfSecond : Bool) : Int :=
  s * 1000 + if endOfSecond then 999 else 0

/-! ### Log-group resolution (`resolve_log_group_name`, source lines 170-187)

The paginated `describe_log_groups` listing is an external collaborator and
arrives as a list of pages; each page entry is the optional `logGroupName`
string of one record (`none` for a missing or non-string field).  Python's
`sorted` on strings orders by codepoint sequence, modelled by `strLeb`
below. -/

/-- Codepoint-lexicographic order on character lists, the order Python uses
to compare strings. -/
def lexLeChars : List Char → List Char → Bool
  | [], _ => true
  | _ :: _, [] => false
  | a :: as, b :: bs =>
    if a.toNat < b.toNat then true
    else if a.toNat = b.toNat then lexLeChars as bs
    else false

/-- Python string comparison, as used by `sorted`. -/
def strLeb (a b : String) : Bool := lexLeChars a.data b.data

/-- Python's `name.endswith(suffix)` on the character lists. -/
def pyEndsWith (name sfx : List Char) : Bool := List.isSuffixOf sfx name

/-- The `matches` list `resolve_log_group_name` accumulates: every listed
name, over all pages, that is a string and ends with the required suffix,
in listing order. -/
def collectMatches (pages : List (List (Option String))) (sfx : String) : List String :=
  pages.flatMap (fun page => page.filterMap (fun entry =>
    match entry with
    | some name => if pyEndsWith name.data sfx.data then some name else none
    | none => none))

inductive ResolveError
  | notFound (sfx : String)
  | ambiguous (sfx : String) (candidates : List String)
deriving DecidableEq

/-- Embedding of `resolve_log_group_name`: build the suffix, collect all
matches over the complete listing, then fail on zero matches, fail listing
the sorted candidates on two or more, and return the single match
otherwise. -/
def resolve_log_group_name (pages : List (List (Option String)))
    (base env : String) : Except ResolveError String :=
  let sfx := base ++ "-" ++ env
  match collectMatches pages sfx with
  | [] => .error (.notFound sfx)
  | [m] => .ok m
  | a :: b :: rest => .error (.ambiguous sfx ((a :: b :: rest).mergeSort strLeb))

/-! ### Message sanitization (`make_utf8_safe_line`, source lines 198-207)

Python `str` values are sequences of codepoints below 0x110000 that may
contain lone surrogates (0xD800 to 0xDFFF), which no valid UTF-8 text and no
Lean `Char` can carry; so this function is embedded at the codepoint level,
a Python string being a `List Nat`.  Encoding with errors-replace turns each
surrogate into a question mark (codepoint 63) and leaves every other
codepoint unchanged, and decoding the now-valid bytes restores those
codepoints; the two `replace` calls then rewrite carriage return (13) to
backslash-r (92, 114) and line feed (10) to backslash-n (92, 110). -/

/-- The three shapes of the `message` argument: a string, `None`, or any
other object (carried as the codepoints of its `str()` rendering). -/
inductive PyText
  | pyStr (cps : List Nat)
  | pyNone
  | pyOther (rendered : List Nat)

/-- The codepoints of the `text` value after the initial type dispatch of
`make_utf8_safe_line`: the string itself, empty for `None`, the rendering
otherwise. -/
def textCps : PyText → List Nat
  | .pyStr c => c
  | .pyNone => []
  | .pyOther r => r

/-- Effect of encode-replace followed by decode on one codepoint: lone
surrogates become a question mark, everything else survives unchanged. -/
def fixCp (c : Nat) : Nat := if 55296 ≤ c ∧ c < 57344 then 63 else c

/-- Effect of the two `replace` calls on one codepoint. -/
def escCp (c : Nat) : List Nat :=
  if c = 13 then [92, 114] else if c = 10 then [92, 110] else [c]

/-- Embedding of `make_utf8_safe_line`. -/
def make_utf8_safe_line (m : PyText) : List Nat :=
  ((textCps m).map fixCp).flatMap escCp

/-! ### Event collection (`fetch_events_by_stream`, source lines 214-240)

The paginated `filter_log_events` response is an external collaborator and
arrives as a list of pages, each page a list of raw event records whose
fields may all be absent.  The loop keeps a set of seen event identifiers
and a dict from stream name to the list of stored event tuples
`(timestamp, ingestion_time, str(event_id or ""), message)`; the dict is
modelled as an insertion-ordered association list, `setdefault` followed by
`append` as `appendToBucket`.  Messages reaching the collector are
representable strings, on which the encode/decode-replace step of
`make_utf8_safe_line` is the identity, leaving the carriage-return and
line-feed escaping, `escapeCrLfChars`. -/

/-- One raw event record of a `filter_log_events` page; `none` stands for an
absent (or, for the stream name, non-string) field. -/
structure RawEvent where
  logStreamName : Option String
  eventId : Option String
  timestamp : Option Int
  ingestionTime : Option Int
  message : Option String

/-- One stored event tuple `(timestamp, ingestion_time, event_id, message)`. -/
structure LogEv where
  ts : Int
  ingest : Int
  eid : String
  msg : String
deriving DecidableEq

/-- The character-level effect of the two `replace` calls of
`make_utf8_safe_line` on a representable string. -/
def escapeCrLfChars (l : List Char) : List Char :=
  l.flatMap (fun c =>
    if c = '\r' then ['\\', 'r'] else if c = '\n' then ['\\', 'n'] else [c])

/-- `make_utf8_safe_line(event.get("message", ""))` for the collector: an
absent field and a `None` value both yield the empty text, and the
representable text is CR/LF-escaped. -/
def safeMessage (m : Option String) : String :=
  ⟨escapeCrLfChars (m.getD "").data⟩

/-- Stream-name coercion of the collector: a missing, non-string or empty
`logStreamName` becomes the placeholder. -/
def coalesceStream (o : Option String) : String :=
  match o with
  | some s => if s = "" then "unknown_stream" else s
  | none => "unknown_stream"

/-- The tuple the collector appends for a retained event: missing timestamp
and ingestion time coerce to zero, the stored id is `str(event_id or "")`,
the message is sanitized. -/
def storedEvent (e : RawEvent) : LogEv :=
  { ts := e.timestamp.getD 0
    ingest := e.ingestionTime.getD 0
    eid := e.eventId.getD ""
    msg := safeMessage e.message }

/-- `events_by_stream.setdefault(stream_name, []).append(tuple)` on the
association-list model of the dict. -/
def appendToBucket : List (String × List LogEv) → String → LogEv → List (String × List LogEv)
  | [], name, e => [(name, [e])]
  | (n, es) :: rest, name, e =>
    if n = name then (n, es ++ [e]) :: rest
    else (n, es) :: appendToBucket rest name e

/-- The collector's loop state: the stream dict and the set of seen event
identifiers. -/
structure CollectState where
  buckets : List (String × List LogEv)
  seen : List String
deriving DecidableEq

/-- The body of the inner loop of `fetch_events_by_stream` for one event:
events whose identifier is a non-empty string are dropped when already seen
and recorded otherwise; all other events are always retained. -/
def processEvent (st : CollectState) (ev : RawEvent) : CollectState :=
  let stream := coalesceStream ev.logStreamName
  match ev.eventId with
  | some i =>
    if i = "" then
      { st with buckets := appendToBucket st.buckets stream (storedEvent ev) }
    else if i ∈ st.seen then st
    else
      { buckets := appendToBucket st.buckets stream (storedEvent ev)
        seen := i :: st.seen }
  | none => { st with buckets := appendToBucket st.buckets stream (storedEvent ev) }

/-- Embedding of `fetch_events_by_stream`: fold the per-event body over all
events of all pages, starting from the empty dict and empty seen set. -/
def fetch_events_by_stream (pages : List (List RawEvent)) : CollectState :=
  pages.foldl (fun st page => page.foldl processEvent st) ⟨[], []⟩

/-- Number of stored events across all buckets whose stored id equals `i`. -/
def bucketsCountId (bs : List (String × List LogEv)) (i : String) : Nat :=
  (bs.map (fun b => (b.2.filter (fun e => e.eid = i)).length)).sum

/-- Number of stored events across all buckets of a collector state whose
stored id equals `i`. -/
def countId (st : CollectState) (i : String) : Nat :=
  bucketsCountId st.buckets i

/-- Total number of stored events across all buckets. -/
def bucketsTotal (bs : List (String × List LogEv)) : Nat :=
  (bs.map (fun b => b.2.length)).sum

/-- Total number of retained events of a collector state. -/
def totalCount (st : CollectState) : Nat :=
  bucketsTotal st.buckets

/-- Dedup invariant of the collector state: a non-empty identifier is stored
exactly once if it has been seen and never otherwise. -/
def seenInv (st : CollectState) : Prop :=
  ∀ i : String, i ≠ "" → countId st i = if i ∈ st.seen then 1 else 0

/-! ### Per-stream event ordering (`write_event_files`, source line 273)

`sorted(events, key=(timestamp, ingestion_time, event_id))` is Python's
stable sort under the lexicographic order on the key triple, with strings
compared by codepoint; `List.mergeSort` is the same stable sort. -/

/-- The sort key order of the writer: ascending by timestamp, then ingestion
time, then event id. -/
def logEvLe (a b : LogEv) : Bool :=
  decide (a.ts < b.ts) ||
    (decide (a.ts = b.ts) &&
      (decide (a.ingest < b.ingest) ||
        (decide (a.ingest = b.ingest) && lexLeChars a.eid.data b.eid.data)))

/-- The writer's per-stream sort. -/
def sortEvents (l : List LogEv) : List LogEv := l.mergeSort logEvLe

/-! ### Output paths (`unique_output_path`, source lines 243-252, and
`write_event_files`, source lines 255-279)

`unique_output_path` tries the stem itself, then stem_2, stem_3, and so on,
until the candidate is not in the set of stems used earlier in the run; the
chosen stem is added to that set and the path is the candidate plus the
".txt" extension, under the output directory.  The unbounded while loop is
embedded with explicit fuel: one more try than the set has elements always
suffices, because the candidates are pairwise distinct strings.  Python
renders the loop index in decimal, embedded as `natDecimal`.

`write_event_files` iterates streams in sorted order of their name, builds
the stem from the sanitized group name, the compact window parts and the
sanitized stream name, draws a fresh path, and writes one line per sorted
event.  The `strftime` renderings (the compact window parts and the
per-line timestamp rendering) are external to this model and appear as
parameters. -/

/-- The decimal digit character for one digit value. -/
def digitChar (n : Nat) : Char := Char.ofNat (48 + n)

/-- Decimal rendering with explicit fuel (the fuel bounds the number of
digits, so fuel `n` always suffices for `n`). -/
def natDecimalAux : Nat → Nat → List Char
  | 0, n => [digitChar (n % 10)]
  | fuel + 1, n =>
    if n < 10 then [digitChar n]
    else natDecimalAux fuel (n / 10) ++ [digitChar (n % 10)]

/-- Decimal rendering of a natural number, as Python renders the loop index
of `unique_output_path` into the candidate name. -/
def natDecimal (n : Nat) : List Char := natDecimalAux n n

/-- Decimal parsing, used to prove the rendering injective. -/
def decimalVal (l : List Char) : Nat :=
  l.foldl (fun a c => 10 * a + (c.toNat - 48)) 0

/-- The candidate tried at loop iteration `k` of `unique_output_path`: the
stem itself first, then the stem with suffix 2, 3, and so on. -/
def candidateAt (stem : List Char) : Nat → List Char
  | 0 => stem
  | k + 1 => stem ++ '_' :: natDecimal (k + 2)

/-- The while loop of `unique_output_path`, with fuel: starting at iteration
`k`, return the first iteration whose candidate is not yet used. -/
def searchFree (stem : List Char) (used : List (List Char)) : Nat → Nat → Nat
  | k, 0 => k
  | k, fuel + 1 =>
    if candidateAt stem k ∈ used then searchFree stem used (k + 1) fuel else k

/-- The ".txt" extension appended to the chosen stem. -/
def txtExt : List Char := ".txt".data

/-- Embedding of `unique_output_path`: the chosen path together with the
updated set of used stems. -/
def unique_output_path (outDir stem : List Char) (used : List (List Char)) :
    List Char × List (List Char) :=
  let c := candidateAt stem (searchFree stem used 0 (used.length + 1))
  (outDir ++ c ++ txtExt, c :: used)

/-- One output line of the writer: the rendered local timestamp, the literal
separator of space, colon, space, the message, and the newline.  `renderTs`
is the external `to_output_timestamp` rendering. -/
def eventLine (renderTs : Int → List Char) (e : LogEv) : List Char :=
  renderTs e.ts ++ ' ' :: ':' :: ' ' :: (e.msg.data ++ ['\n'])

/-- The sequence of chunks the writer hands to `handle.write` for one
stream's file: one chunk per sorted event. -/
def fileChunks (renderTs : Int → List Char) (events : List LogEv) : List (List Char) :=
  (sortEvents events).map (eventLine renderTs)

/-- The events stored for a stream name in the bucket mapping. -/
def bucketEvents (buckets : List (String × List LogEv)) (name : String) : List LogEv :=
  ((buckets.find? (fun b => b.1 = name)).map Prod.snd).getD []

/-- `sorted(events_by_stream)`: the stream names in sorted order. -/
def sortedKeys (buckets : List (String × List LogEv)) : List String :=
  (buckets.map Prod.fst).mergeSort strLeb

/-- The file stem for one stream: sanitized group name, underscore, compact
window start, hyphen, compact window end, underscore, sanitized stream
name. -/
def stemFor (safeGroup fromPart toPart : List Char) (streamName : String) : List Char :=
  safeGroup ++ '_' :: (fromPart ++ '-' :: (toPart ++ '_' ::
    sanitize_filename_component streamName.data))

/-- The loop of `write_event_files`: iterate the given stream names in
order, draw a fresh path for each, and pair it with the chunks written to
that file. -/
def writerAux (outDir : List Char) (stemOf : String → List Char)
    (chunksOf : String → List (List Char)) :
    List String → List (List Char) → List (List Char × List (List Char))
  | [], _ => []
  | s :: rest, used =>
    let pr := unique_output_path outDir (stemOf s) used
    (pr.1, chunksOf s) :: writerAux outDir stemOf chunksOf rest pr.2

/-- Embedding of `write_event_files` as the list of written files, each the
pair of its path and its chunk sequence, in the order written.  The
`strftime` window parts and the timestamp rendering are parameters. -/
def write_event_files (outDir : List Char) (logGroupName : String)
    (fromPart toPart : List Char) (renderTs : Int → List Char)
    (buckets : List (String × List LogEv)) : List (List Char × List (List Char)) :=
  writerAux outDir
    (stemFor (sanitize_filename_component logGroupName.data) fromPart toPart)
    (fun s => fileChunks renderTs (bucketEvents buckets s))
    (sortedKeys buckets) []

/-- The file content present after the first `k` chunks have been written. -/
def contentAfter (chunks : List (List Char)) (k : Nat) : List Char :=
  (chunks.take k).flatten

/-- The full intended file content: all chunks. -/
def fullContent (chunks : List (List Char)) : List Char :=
  chunks.flatten

lemma mem_collapseSepRuns {c : Char} :
    ∀ {l : List Char} {b : Bool}, c ∈ collapseSepRuns l b →
      c = '_' ∨ (c ∈ l ∧ sepChar c = false) := by
  intro l
  induction l with
  | nil => intro b h; simp [collapseSepRuns] at h
  | cons a rest ih =>
    intro b h
    by_cases ha : sepChar a
    · cases b with
      | true =>
        simp only [collapseSepRuns, ha, if_true] at h
        rcases ih h with h' | ⟨hm, hs⟩
        · exact Or.inl h'
        · exact Or.inr ⟨List.mem_cons_of_mem _ hm, hs⟩
      | false =>
        simp only [collapseSepRuns, ha, if_true] at h
        rcases List.mem_cons.mp h with h' | h'
        · exact Or.inl h'
        · rcases ih h' with h'' | ⟨hm, hs⟩
          · exact Or.inl h''
          · exact Or.inr ⟨List.mem_cons_of_mem _ hm, hs⟩
    · simp only [collapseSepRuns, ha, if_false, Bool.false_eq_true] at h
      rcases List.mem_cons.mp h with h' | h'
      · exact Or.inr ⟨h' ▸ List.mem_cons_self _ _, h' ▸ Bool.eq_false_iff.mpr ha⟩
      · rcases ih h' with h'' | ⟨hm, hs⟩
        · exact Or.inl h''
        · exact Or.inr ⟨List.mem_cons_of_mem _ hm, hs⟩

lemma collapseSepRuns_eq_self {l : List Char} (h : ∀ c ∈ l, sepChar c = false) :
    ∀ b, collapseSepRuns l b = l := by
  induction l with
  | nil => intro b; rfl
  | cons a rest ih =>
    intro b
    have ha : sepChar a = false := h a (List.mem_cons_self _ _)
    simp only [collapseSepRuns, ha, Bool.false_eq_true, if_false]
    exact congrArg _ (ih (fun c hc => h c (List.mem_cons_of_mem _ hc)) false)

lemma mem_collapseUnderscoreRuns {c : Char} :
    ∀ {l : List Char} {b : Bool}, c ∈ collapseUnderscoreRuns l b →
      c = '_' ∨ c ∈ l := by
  intro l
  induction l with
  | nil => intro b h; simp [collapseUnderscoreRuns] at h
  | cons a rest ih =>
    intro b h
    by_cases ha : a = '_'
    · cases b with
      | true =>
        simp only [collapseUnderscoreRuns, ha, if_true] at h
        rcases ih h with h' | h'
        · exact Or.inl h'
        · exact Or.inr (List.mem_cons_of_mem _ h')
      | false =>
        simp only [collapseUnderscoreRuns, ha, if_true] at h
        rcases List.mem_cons.mp h with h' | h'
        · exact Or.inl h'
        · rcases ih h' with h'' | h''
          · exact Or.inl h''
          · exact Or.inr (List.mem_cons_of_mem _ h'')
    · simp only [collapseUnderscoreRuns, ha, if_false] at h
      rcases List.mem_cons.mp h with h' | h'
      · exact Or.inr (h' ▸ List.mem_cons_self _ _)
      · rcases ih h' with h'' | h''
        · exact Or.inl h''
        · exact Or.inr (List.mem_cons_of_mem _ h'')

lemma head_collapseUnderscoreRuns_true {c : Char} :
    ∀ {l : List Char}, c ∈ (collapseUnderscoreRuns l true).head? → c ≠ '_' := by
  intro l
  induction l with
  | nil => intro h; simp [collapseUnderscoreRuns] at h
  | cons a rest ih =>
    intro h
    by_cases ha : a = '_'
    · simp only [collapseUnderscoreRuns, ha, if_true] at h
      exact ih h
    · simp only [collapseUnderscoreRuns, ha, if_false, List.head?_cons,
        Option.mem_def, Option.some.injEq] at h
      exact h ▸ ha

lemma chain'_collapseUnderscoreRuns :
    ∀ (l : List Char) (b : Bool), List.Chain' noDoubleUnd (collapseUnderscoreRuns l b) := by
  intro l
  induction l with
  | nil => intro b; simp [collapseUnderscoreRuns]
  | cons a rest ih =>
    intro b
    by_cases ha : a = '_'
    · cases b with
      | true =>
        simpa only [collapseUnderscoreRuns, ha, if_true] using ih true
      | false =>
        simp only [collapseUnderscoreRuns, ha, if_true]
        refine List.chain'_cons'.mpr ⟨?_, ih true⟩
        intro y hy
        exact Or.inr (head_collapseUnderscoreRuns_true hy)
    · simp only [collapseUnderscoreRuns, ha, if_false]
      refine List.chain'_cons'.mpr ⟨?_, ih false⟩
      intro y _
      exact Or.inl ha

lemma collapseUnderscoreRuns_eq_self :
    ∀ {l : List Char} {b : Bool}, List.Chain' noDoubleUnd l →
      (b = true → ∀ c ∈ l.head?, c ≠ '_') → collapseUnderscoreRuns l b = l := by
  intro l
  induction l with
  | nil => intro b _ _; rfl
  | cons a rest ih =>
    intro b hc hb
    have hc' : List.Chain' noDoubleUnd rest := (List.chain'_cons'.mp hc).2
    have hrel : ∀ y ∈ rest.head?, noDoubleUnd a y := (List.chain'_cons'.mp hc).1
    by_cases ha : a = '_'
    · cases b with
      | true =>
        exact absurd ha (hb rfl a (by simp))
      | false =>
        have htail : collapseUnderscoreRuns rest true = rest := by
          refine ih hc' ?_
          intro _ y hy
          rcases hrel y hy with h | h
          · exact absurd ha h
          · exact h
        simp only [collapseUnderscoreRuns, ha, if_true, htail, Bool.false_eq_true, if_false]
    · have htail : collapseUnderscoreRuns rest false = rest :=
        ih hc' (by intro h; cases h)
      simp only [collapseUnderscoreRuns, ha, if_false, htail]

lemma collapseUnderscoreRuns_true_of_all_und {l : List Char}
    (h : ∀ c ∈ l, c = '_') : collapseUnderscoreRuns l true = [] := by
  induction l with
  | nil => rfl
  | cons a rest ih =>
    have ha : a = '_' := h a (List.mem_cons_self _ _)
    simp only [collapseUnderscoreRuns, ha, if_true]
    exact ih (fun c hc => h c (List.mem_cons_of_mem _ hc))

lemma strip_collapse_of_all_und {l : List Char} {b : Bool}
    (h : ∀ c ∈ l, c = '_') : stripUnderscores (collapseUnderscoreRuns l b) = [] := by
  cases l with
  | nil => cases b <;> rfl
  | cons a rest =>
    have ha : a = '_' := h a (List.mem_cons_self _ _)
    have hrest : ∀ c ∈ rest, c = '_' := fun c hc => h c (List.mem_cons_of_mem _ hc)
    cases b with
    | true =>
      rw [show collapseUnderscoreRuns (a :: rest) true = [] from
        collapseUnderscoreRuns_true_of_all_und h]
      rfl
    | false =>
      simp only [collapseUnderscoreRuns, ha, if_true]
      rw [collapseUnderscoreRuns_true_of_all_und hrest]
      rfl

lemma stripUnderscores_isInfix (l : List Char) : stripUnderscores l <:+: l := by
  obtain ⟨s, hs⟩ := List.dropWhile_suffix (l := l) (fun c => c = '_')
  obtain ⟨t, ht⟩ :=
    List.dropWhile_suffix (l := (l.dropWhile (fun c => c = '_')).reverse) (fun c => c = '_')
  refine ⟨s, t.reverse, ?_⟩
  have : stripUnderscores l ++ t.reverse = l.dropWhile (fun c => c = '_') := by
    have := congrArg List.reverse ht
    simpa [stripUnderscores, List.reverse_append] using this
  rw [List.append_assoc, this, hs]

lemma mem_stripUnderscores {l : List Char} {c : Char}
    (h : c ∈ stripUnderscores l) : c ∈ l :=
  (stripUnderscores_isInfix l).subset h

lemma chain'_stripUnderscores {l : List Char} (h : List.Chain' noDoubleUnd l) :
    List.Chain' noDoubleUnd (stripUnderscores l) :=
  h.infix (stripUnderscores_isInfix l)

lemma head_dropWhile_false (p : Char → Bool) :
    ∀ (l : List Char) {c : Char}, c ∈ (l.dropWhile p).head? → p c = false := by
  intro l
  induction l with
  | nil => intro c h; simp at h
  | cons a rest ih =>
    intro c h
    by_cases ha : p a
    · rw [List.dropWhile_cons_of_pos ha] at h
      exact ih h
    · rw [List.dropWhile_cons_of_neg ha] at h
      simp only [List.head?_cons, Option.mem_def, Option.some.injEq] at h
      exact h ▸ Bool.eq_false_iff.mpr ha

lemma dropWhile_eq_self_of_head {p : Char → Bool} {l : List Char}
    (h : ∀ c ∈ l.head?, p c = false) : l.dropWhile p = l := by
  cases l with
  | nil => rfl
  | cons a rest =>
    have : p a = false := h a (by simp)
    simp [List.dropWhile_cons, this]

lemma head_stripUnderscores {l : List Char} {c : Char}
    (h : c ∈ (stripUnderscores l).head?) : c ≠ '_' := by
  obtain ⟨t, ht⟩ :=
    List.dropWhile_suffix (l := (l.dropWhile (fun c => c = '_')).reverse) (fun c => c = '_')
  have hstep : stripUnderscores l ++ t.reverse = l.dropWhile (fun c => c = '_') := by
    have := congrArg List.reverse ht
    simpa [stripUnderscores, List.reverse_append] using this
  cases hempty : stripUnderscores l with
  | nil => rw [hempty] at h; simp at h
  | cons a rest =>
    rw [hempty] at h
    simp only [List.head?_cons, Option.mem_def, Option.some.injEq] at h
    have hhead : (l.dropWhile (fun c => c = '_')).head? = some a := by
      rw [← hstep, hempty]; simp
    have := head_dropWhile_false (fun c => c = '_') l (c := a) (by rw [hhead]; rfl)
    simp only [decide_eq_false_iff_not] at this
    exact h ▸ this

lemma head_reverse_stripUnderscores {l : List Char} {c : Char}
    (h : c ∈ (stripUnderscores l).reverse.head?) : c ≠ '_' := by
  have hrev : (stripUnderscores l).reverse
      = (l.dropWhile (fun c => c = '_')).reverse.dropWhile (fun c => c = '_') := by
    simp [stripUnderscores]
  rw [hrev] at h
  have := head_dropWhile_false (fun c => c = '_')
    ((l.dropWhile (fun c => c = '_')).reverse) h
  simpa using this

lemma stripUnderscores_eq_self {l : List Char}
    (h1 : ∀ c ∈ l.head?, c ≠ '_') (h2 : ∀ c ∈ l.reverse.head?, c ≠ '_') :
    stripUnderscores l = l := by
  have e1 : l.dropWhile (fun c => c = '_') = l :=
    dropWhile_eq_self_of_head (fun c hc => by
      simpa using h1 c hc)
  have e2 : l.reverse.dropWhile (fun c => c = '_') = l.reverse :=
    dropWhile_eq_self_of_head (fun c hc => by
      simpa using h2 c hc)
  simp [stripUnderscores, e1, e2]

lemma allowed_not_sep {c : Char} (h : allowedChar c = true) : sepChar c = false := by
  simp only [allowedChar, Bool.or_eq_true, Bool.and_eq_true, decide_eq_true_eq] at h
  simp only [sepChar, pySpace, Bool.or_eq_true, Bool.and_eq_true, decide_eq_true_eq,
    Bool.or_eq_false_iff, Bool.and_eq_false_iff, decide_eq_false_iff_not]
  omega

lemma mem_sanitize_allowed {l : List Char} {c : Char}
    (h : c ∈ sanitize_filename_component l) : allowedChar c = true := by
  simp only [sanitize_filename_component] at h
  split at h
  · fin_cases h <;> rfl
  · have h3 := mem_stripUnderscores h
    rcases mem_collapseUnderscoreRuns h3 with h4 | h4
    · rw [h4]; rfl
    · exact List.of_mem_filter h4

lemma sanitize_fixed {r : List Char} (hne : r ≠ [])
    (hallow : ∀ c ∈ r, allowedChar c = true)
    (hchain : List.Chain' noDoubleUnd r)
    (hhead : ∀ c ∈ r.head?, c ≠ '_')
    (hlast : ∀ c ∈ r.reverse.head?, c ≠ '_') :
    sanitize_filename_component r = r := by
  have hnosep : ∀ c ∈ r, sepChar c = false := fun c hc => allowed_not_sep (hallow c hc)
  have e1 : collapseSepRuns r false = r := collapseSepRuns_eq_self hnosep false
  have e2 : r.filter allowedChar = r := List.filter_eq_self.mpr hallow
  have e3 : collapseUnderscoreRuns r false = r :=
    collapseUnderscoreRuns_eq_self hchain (by intro h; cases h)
  have e4 : stripUnderscores r = r := stripUnderscores_eq_self hhead hlast
  simp [sanitize_filename_component, e1, e2, e3, e4, hne]

/-- C6: `sanitize_filename_component` collapses separator or whitespace runs to
one underscore, drops characters outside the class of letters, digits, dot,
underscore and hyphen, collapses repeated underscores, trims outer underscores,
and falls back to the literal "item" on an empty result: the input "a/b c:d"
sanitizes to "a_b_c_d", and any input all of whose characters lie outside the
allowed class sanitizes to "item". -/
theorem sanitize_component_spec :
    sanitize_filename_component "a/b c:d".data = "a_b_c_d".data ∧
    ∀ l : List Char, (∀ c ∈ l, allowedChar c = false) →
      sanitize_filename_component l = "item".data := by
  refine ⟨by decide, ?_⟩
  intro l hinv
  have hall : ∀ c ∈ (collapseSepRuns l false).filter allowedChar, c = '_' := by
    intro c hc
    have hal : allowedChar c = true := List.of_mem_filter hc
    have hmem := List.mem_of_mem_filter hc
    rcases mem_collapseSepRuns hmem with h | ⟨hl, _⟩
    · exact h
    · rw [hinv c hl] at hal; cases hal
  simp [sanitize_filename_component, strip_collapse_of_all_und hall]

/-- Closed witness for C6: the all-invalid input consisting of three hash
characters sanitizes to "item". -/
theorem sanitize_component_spec_witness :
    sanitize_filename_component "###".data = "item".data :=
  sanitize_component_spec.2 "###".data (by decide)

/-- C10: `sanitize_filename_component` is idempotent — every output of the
function is a fixed point of the function. -/
theorem sanitize_component_idempotent (l : List Char) :
    sanitize_filename_component (sanitize_filename_component l)
      = sanitize_filename_component l := by
  by_cases hnil :
      stripUnderscores (collapseUnderscoreRuns
        ((collapseSepRuns l false).filter allowedChar) false) = []
  · have hL : sanitize_filename_component l = "item".data := by
      simp [sanitize_filename_component, hnil]
    rw [hL]
    decide
  · have hL : sanitize_filename_component l
        = stripUnderscores (collapseUnderscoreRuns
            ((collapseSepRuns l false).filter allowedChar) false) := by
      simp [sanitize_filename_component, hnil]
    rw [hL]
    refine sanitize_fixed hnil ?_ ?_ ?_ ?_
    · intro c hc
      have h3 := mem_stripUnderscores hc
      rcases mem_collapseUnderscoreRuns h3 with h4 | h4
      · rw [h4]; rfl
      · exact List.of_mem_filter h4
    · exact chain'_stripUnderscores (chain'_collapseUnderscoreRuns _ false)
    · exact fun c hc => head_stripUnderscores hc
    · exact fun c hc => head_reverse_stripUnderscores hc

/-- C5: window resolution — both bounds absent gives the trailing 12-hour
window ending at `now`; only the start given pairs it with `now`; only the
end given pairs it with `end - 12h`; both given are used as-is; and the
resolver fails exactly when the resolved start is strictly after the
resolved end. -/
theorem resolve_window_spec :
    (∀ now : Int, resolve_window none none now = .ok (now - 43200, now)) ∧
    (∀ f now : Int, f ≤ now → resolve_window (some f) none now = .ok (f, now)) ∧
    (∀ t now : Int, resolve_window none (some t) now = .ok (t - 43200, t)) ∧
    (∀ f t now : Int, f ≤ t → resolve_window (some f) (some t) now = .ok (f, t)) ∧
    (∀ (fromOpt toOpt : Option Int) (now : Int),
      resolve_window fromOpt toOpt now = .error .fromAfterTo ↔
        (resolvedPair fromOpt toOpt now).2 < (resolvedPair fromOpt toOpt now).1) := by
  refine ⟨?_, ?_, ?_, ?_, ?_⟩
  · intro now
    simp only [resolve_window, resolvedPair]
    rw [if_neg (by omega)]
  · intro f now h
    simp only [resolve_window, resolvedPair]
    rw [if_neg (by omega)]
  · intro t now
    simp only [resolve_window, resolvedPair]
    rw [if_neg (by omega)]
  · intro f t now h
    simp only [resolve_window, resolvedPair]
    rw [if_neg (by omega)]
  · intro fromOpt toOpt now
    simp only [resolve_window]
    split
    · simpa using ‹_›
    · simp only [reduceCtorEq, false_iff]
      omega

/-- Closed witness for C5: a valid explicit window resolves as given, and a
reversed window fails validation. -/
theorem resolve_window_spec_witness :
    resolve_window (some 3) (some 7) 0 = .ok (3, 7) ∧
    resolve_window (some 7) (some 3) 0 = .error .fromAfterTo :=
  ⟨resolve_window_spec.2.2.2.1 3 7 0 (by decide),
   (resolve_window_spec.2.2.2.2 (some 7) (some 3) 0).mpr (by decide)⟩

/-- C3: the query window's end boundary in epoch milliseconds is the epoch
seconds of the end times 1000 plus 999, the start boundary is the epoch
seconds of the start times 1000 exactly, and every millisecond of the last
second of the window, up to the 999th, lies inside the queried range. -/
theorem epoch_ms_boundary_spec :
    (∀ s : Int, local_datetime_to_epoch_ms s true = s * 1000 + 999) ∧
    (∀ s : Int, local_datetime_to_epoch_ms s false = s * 1000) ∧
    (∀ sStart sEnd k : Int, sStart ≤ sEnd → 0 ≤ k → k ≤ 999 →
      local_datetime_to_epoch_ms sStart false ≤ sEnd * 1000 + k ∧
      sEnd * 1000 + k ≤ local_datetime_to_epoch_ms sEnd true) := by
  refine ⟨fun s => rfl, fun s => by simp [local_datetime_to_epoch_ms], ?_⟩
  intro sStart sEnd k h1 h2 h3
  simp only [local_datetime_to_epoch_ms, Bool.false_eq_true, if_false, if_true]
  omega

/-- Closed witness for C3: with the window of epoch seconds 0 to 1, the
999th millisecond of the final second is inside the queried range. -/
theorem epoch_ms_boundary_spec_witness :
    local_datetime_to_epoch_ms 0 false ≤ 1 * 1000 + 999 ∧
    1 * 1000 + 999 ≤ local_datetime_to_epoch_ms 1 true :=
  epoch_ms_boundary_spec.2.2 0 1 999 (by decide) (by decide) (by decide)

lemma lexLeChars_total : ∀ a b : List Char, (lexLeChars a b || lexLeChars b a) = true := by
  intro a
  induction a with
  | nil => intro b; simp [lexLeChars]
  | cons x xs ih =>
    intro b
    cases b with
    | nil => simp [lexLeChars]
    | cons y ys =>
      by_cases hxy : x.toNat < y.toNat
      · simp [lexLeChars, hxy]
      · by_cases heq : x.toNat = y.toNat
        · have h2 : ¬ y.toNat < x.toNat := by omega
          simp only [lexLeChars, if_neg hxy, if_pos heq, if_neg h2, if_pos heq.symm]
          exact ih ys
        · have h2 : y.toNat < x.toNat := by omega
          simp [lexLeChars, hxy, heq, h2]

lemma lexLeChars_trans : ∀ a b c : List Char,
    lexLeChars a b = true → lexLeChars b c = true → lexLeChars a c = true := by
  intro a
  induction a with
  | nil => intro b c _ _; rfl
  | cons x xs ih =>
    intro b c hab hbc
    cases b with
    | nil => simp [lexLeChars] at hab
    | cons y ys =>
      cases c with
      | nil => simp [lexLeChars] at hbc
      | cons z zs =>
        by_cases hxy : x.toNat < y.toNat <;> by_cases hyz : y.toNat < z.toNat
        · simp [lexLeChars]; omega
        · by_cases heq : y.toNat = z.toNat
          · simp only [lexLeChars]
            rw [if_pos (by omega)]
          · simp [lexLeChars, hyz, heq] at hbc
        · by_cases heq : x.toNat = y.toNat
          · simp only [lexLeChars]
            rw [if_pos (by omega)]
          · simp [lexLeChars, hxy, heq] at hab
        · by_cases heq1 : x.toNat = y.toNat
          · by_cases heq2 : y.toNat = z.toNat
            · simp only [lexLeChars, if_neg hxy, if_pos heq1] at hab
              simp only [lexLeChars, if_neg hyz, if_pos heq2] at hbc
              simp only [lexLeChars, if_neg (show ¬ x.toNat < z.toNat by omega),
                if_pos (show x.toNat = z.toNat by omega)]
              exact ih ys zs hab hbc
            · simp [lexLeChars, hyz, heq2] at hbc
          · simp [lexLeChars, hxy, heq1] at hab

lemma strLeb_total (a b : String) : (strLeb a b || strLeb b a) = true :=
  lexLeChars_total a.data b.data

lemma strLeb_trans (a b c : String) :
    strLeb a b = true → strLeb b c = true → strLeb a c = true :=
  lexLeChars_trans a.data b.data c.data

/-- C4: over the complete paginated listing, zero suffix matches fail with a
not-found error naming the suffix, two or more matches fail with an
ambiguous-match error listing all matching names sorted (never silently
picking one), and exactly one match is returned. -/
theorem resolve_log_group_spec (pages : List (List (Option String))) (base env : String) :
    (collectMatches pages (base ++ "-" ++ env) = [] →
      resolve_log_group_name pages base env = .error (.notFound (base ++ "-" ++ env))) ∧
    (∀ x, collectMatches pages (base ++ "-" ++ env) = [x] →
      resolve_log_group_name pages base env = .ok x) ∧
    (1 < (collectMatches pages (base ++ "-" ++ env)).length →
      resolve_log_group_name pages base env
        = .error (.ambiguous (base ++ "-" ++ env)
            ((collectMatches pages (base ++ "-" ++ env)).mergeSort strLeb)) ∧
      ((collectMatches pages (base ++ "-" ++ env)).mergeSort strLeb).Perm
        (collectMatches pages (base ++ "-" ++ env)) ∧
      List.Pairwise (fun a b => strLeb a b = true)
        ((collectMatches pages (base ++ "-" ++ env)).mergeSort strLeb)) := by
  refine ⟨?_, ?_, ?_⟩
  · intro h
    simp [resolve_log_group_name, h]
  · intro x h
    simp [resolve_log_group_name, h]
  · intro h
    refine ⟨?_, List.mergeSort_perm _ _,
      List.sorted_mergeSort (fun a b c => strLeb_trans a b c) strLeb_total _⟩
    cases hm : collectMatches pages (base ++ "-" ++ env) with
    | nil => rw [hm] at h; simp at h
    | cons a tail =>
      cases tail with
      | nil => rw [hm] at h; simp at h
      | cons b rest =>
        simp [resolve_log_group_name, hm]

/-- Closed witness for C4: a listing with a single matching name resolves to
it; a listing with two matching names fails with the ambiguous error; a
listing with none fails with the not-found error. -/
theorem resolve_log_group_spec_witness :
    resolve_log_group_name [[some "p-orders-sit", none], [some "zz"]] "orders" "sit"
      = .ok "p-orders-sit" ∧
    resolve_log_group_name [[some "a-orders-sit"], [some "b-orders-sit"]] "orders" "sit"
      = .error (.ambiguous ("orders" ++ "-" ++ "sit")
          ((collectMatches [[some "a-orders-sit"], [some "b-orders-sit"]]
            ("orders" ++ "-" ++ "sit")).mergeSort strLeb)) ∧
    resolve_log_group_name [[some "zz"]] "orders" "sit"
      = .error (.notFound ("orders" ++ "-" ++ "sit")) :=
  ⟨(resolve_log_group_spec [[some "p-orders-sit", none], [some "zz"]] "orders" "sit").2.1
      "p-orders-sit" (by decide),
   ((resolve_log_group_spec [[some "a-orders-sit"], [some "b-orders-sit"]] "orders" "sit").2.2
      (by decide)).1,
   (resolve_log_group_spec [[some "zz"]] "orders" "sit").1 (by decide)⟩

/-- C8: for every message value — string, absent, or other object — the
sanitized message is valid text (every codepoint is a valid scalar value
whenever the input codepoints are Python-string codepoints, with every
encoding defect replaced) and contains no raw carriage-return or line-feed
codepoint; each is escaped to the literal backslash-r and backslash-n
two-character sequences, as the concrete evaluation shows. -/
theorem make_utf8_safe_line_spec (m : PyText) :
    (13 ∉ make_utf8_safe_line m ∧ 10 ∉ make_utf8_safe_line m) ∧
    ((∀ c ∈ textCps m, c < 1114112) → ∀ c ∈ make_utf8_safe_line m,
      c < 1114112 ∧ ¬(55296 ≤ c ∧ c < 57344)) ∧
    make_utf8_safe_line (.pyStr [65, 13, 10, 55296]) = [65, 92, 114, 92, 110, 63] := by
  refine ⟨⟨?_, ?_⟩, ?_, by decide⟩
  · intro h
    simp only [make_utf8_safe_line, List.mem_flatMap, List.mem_map] at h
    obtain ⟨a, ⟨b, _, hba⟩, ha⟩ := h
    by_cases h13 : a = 13
    · simp [escCp, h13] at ha
    · by_cases h10 : a = 10
      · simp [escCp, h13, h10] at ha
      · simp [escCp, h13, h10] at ha
        omega
  · intro h
    simp only [make_utf8_safe_line, List.mem_flatMap, List.mem_map] at h
    obtain ⟨a, ⟨b, _, hba⟩, ha⟩ := h
    by_cases h13 : a = 13
    · simp [escCp, h13] at ha
    · by_cases h10 : a = 10
      · simp [escCp, h13, h10] at ha
      · simp [escCp, h13, h10] at ha
        omega
  · intro hin c hc
    simp only [make_utf8_safe_line, List.mem_flatMap, List.mem_map] at hc
    obtain ⟨a, ⟨b, hb, hba⟩, ha⟩ := hc
    have hbv : b < 1114112 := hin b hb
    have hav : a < 1114112 ∧ ¬(55296 ≤ a ∧ a < 57344) := by
      rw [← hba]
      simp only [fixCp]
      split <;> omega
    by_cases h13 : a = 13
    · simp [escCp, h13] at ha
      rcases ha with h | h <;> omega
    · by_cases h10 : a = 10
      · simp [escCp, h13, h10] at ha
        rcases ha with h | h <;> omega
      · simp [escCp, h13, h10] at ha
        omega

/-- Closed witness for C8: the sanitized form of a string containing a lone
surrogate consists only of valid non-surrogate scalar values, here checked
at its member 63. -/
theorem make_utf8_safe_line_spec_witness :
    63 < 1114112 ∧ ¬(55296 ≤ 63 ∧ 63 < 57344) :=
  (make_utf8_safe_line_spec (.pyStr [65, 55296])).2.1 (by decide) 63 (by decide)

lemma bucketsCountId_cons (x : String × List LogEv) (xs : List (String × List LogEv))
    (i : String) :
    bucketsCountId (x :: xs) i
      = (x.2.filter (fun e => e.eid = i)).length + bucketsCountId xs i := by
  simp [bucketsCountId]

lemma bucketsTotal_cons (x : String × List LogEv) (xs : List (String × List LogEv)) :
    bucketsTotal (x :: xs) = x.2.length + bucketsTotal xs := by
  simp [bucketsTotal]

lemma bucketsCountId_appendToBucket (bs : List (String × List LogEv))
    (name : String) (e : LogEv) (i : String) :
    bucketsCountId (appendToBucket bs name e) i
      = bucketsCountId bs i + (if e.eid = i then 1 else 0) := by
  induction bs with
  | nil =>
    simp only [appendToBucket, bucketsCountId_cons, List.filter_cons, List.filter_nil]
    by_cases he : e.eid = i <;> simp [he, bucketsCountId]
  | cons hd rest ih =>
    obtain ⟨n, es⟩ := hd
    by_cases hn : n = name
    · simp only [appendToBucket, if_pos hn, bucketsCountId_cons, List.filter_append,
        List.length_append, List.filter_cons, List.filter_nil]
      by_cases he : e.eid = i
      · simp [he]
        omega
      · simp [he]
    · simp only [appendToBucket, if_neg hn, bucketsCountId_cons, ih]
      omega

lemma bucketsTotal_appendToBucket (bs : List (String × List LogEv))
    (name : String) (e : LogEv) :
    bucketsTotal (appendToBucket bs name e) = bucketsTotal bs + 1 := by
  induction bs with
  | nil => simp [appendToBucket, bucketsTotal]
  | cons hd rest ih =>
    obtain ⟨n, es⟩ := hd
    by_cases hn : n = name
    · simp only [appendToBucket, if_pos hn, bucketsTotal_cons, List.length_append,
        List.length_cons, List.length_nil]
      omega
    · simp only [appendToBucket, if_neg hn, bucketsTotal_cons, ih]
      omega

lemma processEvent_noId {st : CollectState} {ev : RawEvent}
    (hev : ev.eventId = none) :
    processEvent st ev
      = ⟨appendToBucket st.buckets (coalesceStream ev.logStreamName) (storedEvent ev),
         st.seen⟩ := by
  simp [processEvent, hev]

lemma processEvent_emptyId {st : CollectState} {ev : RawEvent}
    (hev : ev.eventId = some "") :
    processEvent st ev
      = ⟨appendToBucket st.buckets (coalesceStream ev.logStreamName) (storedEvent ev),
         st.seen⟩ := by
  simp [processEvent, hev]

lemma processEvent_seenId {st : CollectState} {ev : RawEvent} {i0 : String}
    (hev : ev.eventId = some i0) (h0 : i0 ≠ "") (hs : i0 ∈ st.seen) :
    processEvent st ev = st := by
  simp [processEvent, hev, h0, hs]

lemma processEvent_newId {st : CollectState} {ev : RawEvent} {i0 : String}
    (hev : ev.eventId = some i0) (h0 : i0 ≠ "") (hs : i0 ∉ st.seen) :
    processEvent st ev
      = ⟨appendToBucket st.buckets (coalesceStream ev.logStreamName) (storedEvent ev),
         i0 :: st.seen⟩ := by
  simp [processEvent, hev, h0, hs]

lemma seenInv_processEvent {st : CollectState} (h : seenInv st) (ev : RawEvent) :
    seenInv (processEvent st ev) := by
  intro i hi
  cases hev : ev.eventId with
  | none =>
    have heid : (storedEvent ev).eid = "" := by simp [storedEvent, hev]
    rw [processEvent_noId hev]
    show bucketsCountId (appendToBucket st.buckets _ _) i = if i ∈ st.seen then 1 else 0
    rw [bucketsCountId_appendToBucket, heid, if_neg (Ne.symm hi), Nat.add_zero]
    exact h i hi
  | some i0 =>
    by_cases h0 : i0 = ""
    · have heid : (storedEvent ev).eid = "" := by simp [storedEvent, hev, h0]
      rw [processEvent_emptyId (h0 ▸ hev)]
      show bucketsCountId (appendToBucket st.buckets _ _) i = if i ∈ st.seen then 1 else 0
      rw [bucketsCountId_appendToBucket, heid, if_neg (Ne.symm hi), Nat.add_zero]
      exact h i hi
    · by_cases hseen : i0 ∈ st.seen
      · rw [processEvent_seenId hev h0 hseen]
        exact h i hi
      · have heid : (storedEvent ev).eid = i0 := by simp [storedEvent, hev]
        rw [processEvent_newId hev h0 hseen]
        show bucketsCountId (appendToBucket st.buckets _ _) i
          = if i ∈ i0 :: st.seen then 1 else 0
        rw [bucketsCountId_appendToBucket, heid]
        by_cases hii : i0 = i
        · subst hii
          have hc : countId st i0 = 0 := by rw [h i0 hi, if_neg hseen]
          show countId st i0 + _ = _
          rw [hc, if_pos rfl, if_pos (List.mem_cons_self _ _)]
        · show countId st i + _ = _
          rw [if_neg hii, h i hi, Nat.add_zero]
          have hmem : (i ∈ i0 :: st.seen) ↔ i ∈ st.seen := by
            constructor
            · intro hx
              rcases List.mem_cons.mp hx with hx | hx
              · exact absurd hx.symm hii
              · exact hx
            · exact fun hx => List.mem_cons_of_mem _ hx
          simp only [hmem]

lemma seenInv_fold {st : CollectState} (h : seenInv st) (evs : List RawEvent) :
    seenInv (evs.foldl processEvent st) := by
  induction evs generalizing st with
  | nil => exact h
  | cons e rest ih => exact ih (seenInv_processEvent h e)

lemma seenInv_foldPages {st : CollectState} (h : seenInv st)
    (pages : List (List RawEvent)) :
    seenInv (pages.foldl (fun st page => page.foldl processEvent st) st) := by
  induction pages generalizing st with
  | nil => exact h
  | cons p rest ih => exact ih (seenInv_fold h p)

lemma seenInv_fetch (pages : List (List RawEvent)) :
    seenInv (fetch_events_by_stream pages) := by
  refine seenInv_foldPages ?_ pages
  intro i hi
  simp [countId, bucketsCountId]

/-- C1: every event whose identifier is a non-empty string already seen in
the run is dropped — across any pages a non-empty identifier is retained at
most once, and the concrete two-page run feeding the same identifier twice
retains exactly one event — while an event with an absent or empty
identifier is always retained (never dropped by deduplication). -/
theorem fetch_events_dedup_spec :
    (∀ (pages : List (List RawEvent)) (i : String), i ≠ "" →
      countId (fetch_events_by_stream pages) i ≤ 1) ∧
    (∀ (st : CollectState) (ev : RawEvent),
      ev.eventId = none ∨ ev.eventId = some "" →
      totalCount (processEvent st ev) = totalCount st + 1) ∧
    (countId (fetch_events_by_stream
        [[{ logStreamName := some "s1", eventId := some "e-1", timestamp := some 5,
            ingestionTime := some 6, message := some "m1" }],
         [{ logStreamName := some "s2", eventId := some "e-1", timestamp := some 7,
            ingestionTime := some 8, message := some "m2" }]]) "e-1" = 1 ∧
     totalCount (fetch_events_by_stream
        [[{ logStreamName := some "s1", eventId := some "e-1", timestamp := some 5,
            ingestionTime := some 6, message := some "m1" }],
         [{ logStreamName := some "s2", eventId := some "e-1", timestamp := some 7,
            ingestionTime := some 8, message := some "m2" }]]) = 1) := by
  refine ⟨?_, ?_, by decide⟩
  · intro pages i hi
    rw [seenInv_fetch pages i hi]
    split <;> simp
  · intro st ev h
    rcases h with hev | hev
    · rw [processEvent_noId hev]
      exact bucketsTotal_appendToBucket _ _ _
    · rw [processEvent_emptyId hev]
      exact bucketsTotal_appendToBucket _ _ _

/-- Closed witness for C1: a single non-empty identifier is retained at most
once, and an event without identifier is always retained. -/
theorem fetch_events_dedup_spec_witness :
    countId (fetch_events_by_stream
      [[{ logStreamName := some "s", eventId := some "x", timestamp := none,
          ingestionTime := none, message := none }]]) "x" ≤ 1 ∧
    totalCount (processEvent ⟨[], []⟩
      { logStreamName := some "s", eventId := none, timestamp := none,
        ingestionTime := none, message := none }) = totalCount ⟨[], []⟩ + 1 :=
  ⟨fetch_events_dedup_spec.1 _ "x" (by decide),
   fetch_events_dedup_spec.2.1 _ _ (Or.inl rfl)⟩

lemma logEvLe_total (a b : LogEv) : (logEvLe a b || logEvLe b a) = true := by
  simp only [logEvLe, Bool.or_eq_true, Bool.and_eq_true, decide_eq_true_eq]
  rcases lt_trichotomy a.ts b.ts with h | h | h
  · exact Or.inl (Or.inl h)
  · rcases lt_trichotomy a.ingest b.ingest with h2 | h2 | h2
    · exact Or.inl (Or.inr ⟨h, Or.inl h2⟩)
    · rcases Bool.or_eq_true_iff.mp (lexLeChars_total a.eid.data b.eid.data) with h3 | h3
      · exact Or.inl (Or.inr ⟨h, Or.inr ⟨h2, h3⟩⟩)
      · exact Or.inr (Or.inr ⟨h.symm, Or.inr ⟨h2.symm, h3⟩⟩)
    · exact Or.inr (Or.inr ⟨h.symm, Or.inl h2⟩)
  · exact Or.inr (Or.inl h)

lemma logEvLe_trans (a b c : LogEv) :
    logEvLe a b = true → logEvLe b c = true → logEvLe a c = true := by
  simp only [logEvLe, Bool.or_eq_true, Bool.and_eq_true, decide_eq_true_eq]
  intro hab hbc
  rcases hab with hab | ⟨hab1, hab2⟩
  · rcases hbc with hbc | ⟨hbc1, _⟩
    · exact Or.inl (lt_trans hab hbc)
    · exact Or.inl (hbc1 ▸ hab)
  · rcases hbc with hbc | ⟨hbc1, hbc2⟩
    · exact Or.inl (hab1 ▸ hbc)
    · refine Or.inr ⟨hab1.trans hbc1, ?_⟩
      rcases hab2 with hab2 | ⟨hab2a, hab2b⟩
      · rcases hbc2 with hbc2 | ⟨hbc2a, _⟩
        · exact Or.inl (lt_trans hab2 hbc2)
        · exact Or.inl (hbc2a ▸ hab2)
      · rcases hbc2 with hbc2 | ⟨hbc2a, hbc2b⟩
        · exact Or.inl (hab2a ▸ hbc2)
        · exact Or.inr ⟨hab2a.trans hbc2a,
            lexLeChars_trans a.eid.data b.eid.data c.eid.data hab2b hbc2b⟩

/-- C2: within each stream the writer outputs events sorted ascending by the
key (timestamp, ingestion time, event id) — the sorted output is a
permutation of the bucket pairwise ordered by that key — and on the example
events (t=5, i=2, id="b"), (t=5, i=1, id="a") the ingestion time breaks the
timestamp tie, giving id "a" before id "b". -/
theorem write_events_sort_spec :
    (∀ l : List LogEv,
      List.Pairwise (fun a b => logEvLe a b = true) (sortEvents l)) ∧
    (∀ l : List LogEv, (sortEvents l).Perm l) ∧
    sortEvents [⟨5, 2, "b", "m"⟩, ⟨5, 1, "a", "m"⟩]
      = [⟨5, 1, "a", "m"⟩, ⟨5, 2, "b", "m"⟩] := by
  refine ⟨?_, ?_, ?_⟩
  · exact fun l => List.sorted_mergeSort logEvLe_trans logEvLe_total l
  · exact fun l => List.mergeSort_perm l logEvLe
  · simp [sortEvents, List.mergeSort, logEvLe, lexLeChars]

lemma digitChar_toNat {k : Nat} (h : k < 10) : (digitChar k).toNat = 48 + k := by
  interval_cases k <;> rfl

lemma decimalVal_append_digit (l : List Char) (c : Char) :
    decimalVal (l ++ [c]) = 10 * decimalVal l + (c.toNat - 48) := by
  simp [decimalVal, List.foldl_append]

lemma decimalVal_natDecimalAux :
    ∀ (fuel n : Nat), n ≤ fuel → decimalVal (natDecimalAux fuel n) = n := by
  intro fuel
  induction fuel with
  | zero =>
    intro n hn
    have : n = 0 := Nat.le_zero.mp hn
    subst this
    rfl
  | succ fuel ih =>
    intro n hn
    by_cases h10 : n < 10
    · simp only [natDecimalAux, if_pos h10, decimalVal, List.foldl_cons, List.foldl_nil]
      rw [digitChar_toNat h10]
      omega
    · have hdiv : n / 10 ≤ fuel := by omega
      simp only [natDecimalAux, if_neg h10]
      rw [decimalVal_append_digit, ih _ hdiv, digitChar_toNat (Nat.mod_lt n (by omega))]
      omega

lemma natDecimal_inj {m n : Nat} (h : natDecimal m = natDecimal n) : m = n :=
  calc m = decimalVal (natDecimalAux m m) := (decimalVal_natDecimalAux m m le_rfl).symm
    _ = decimalVal (natDecimalAux n n) := by
        rw [show natDecimalAux m m = natDecimalAux n n from h]
    _ = n := decimalVal_natDecimalAux n n le_rfl

lemma candidateAt_inj (stem : List Char) {i j : Nat}
    (h : candidateAt stem i = candidateAt stem j) : i = j := by
  cases i with
  | zero =>
    cases j with
    | zero => rfl
    | succ j =>
      exfalso
      have := congrArg List.length h
      simp [candidateAt] at this
  | succ i =>
    cases j with
    | zero =>
      exfalso
      have := congrArg List.length h
      simp [candidateAt] at this
    | succ j =>
      simp only [candidateAt] at h
      have h2 := List.append_cancel_left h
      have h3 : natDecimal (i + 2) = natDecimal (j + 2) := by
        injection h2
      have := natDecimal_inj h3
      omega

lemma searchFree_not_mem (stem : List Char) (used : List (List Char)) :
    ∀ (fuel k : Nat), (∃ j, j < fuel ∧ candidateAt stem (k + j) ∉ used) →
      candidateAt stem (searchFree stem used k fuel) ∉ used := by
  intro fuel
  induction fuel with
  | zero =>
    intro k h
    obtain ⟨j, hj, _⟩ := h
    omega
  | succ fuel ih =>
    intro k h
    by_cases hmem : candidateAt stem k ∈ used
    · simp only [searchFree, if_pos hmem]
      refine ih (k + 1) ?_
      obtain ⟨j, hj, hfree⟩ := h
      cases j with
      | zero => exact absurd hmem (by simpa using hfree)
      | succ j =>
        refine ⟨j, by omega, ?_⟩
        have : k + 1 + j = k + (j + 1) := by omega
        rw [this]
        exact hfree
    · simp only [searchFree, if_neg hmem]
      exact hmem

lemma exists_candidate_not_mem (stem : List Char) (used : List (List Char)) :
    ∃ j, j ≤ used.length ∧ candidateAt stem j ∉ used := by
  by_contra hc
  push_neg at hc
  have hsub : (Finset.range (used.length + 1)).image (candidateAt stem)
      ⊆ used.toFinset := by
    intro x hx
    obtain ⟨j, hj, hjx⟩ := Finset.mem_image.mp hx
    have hjle := Finset.mem_range.mp hj
    have hmem := hc j (by omega)
    exact List.mem_toFinset.mpr (hjx ▸ hmem)
  have hcard := Finset.card_le_card hsub
  rw [Finset.card_image_of_injective _ (fun a b => candidateAt_inj stem),
    Finset.card_range] at hcard
  have := List.toFinset_card_le used
  omega

lemma unique_output_path_fresh (stem : List Char) (used : List (List Char)) :
    candidateAt stem (searchFree stem used 0 (used.length + 1)) ∉ used := by
  refine searchFree_not_mem stem used (used.length + 1) 0 ?_
  obtain ⟨j, hj, hfree⟩ := exists_candidate_not_mem stem used
  exact ⟨j, Nat.lt_succ_of_le hj, by simpa using hfree⟩

lemma writerAux_cons (outDir : List Char) (stemOf : String → List Char)
    (chunksOf : String → List (List Char)) (s : String) (rest : List String)
    (used : List (List Char)) :
    writerAux outDir stemOf chunksOf (s :: rest) used
      = (outDir ++ candidateAt (stemOf s) (searchFree (stemOf s) used 0 (used.length + 1))
           ++ txtExt, chunksOf s)
        :: writerAux outDir stemOf chunksOf rest
             (candidateAt (stemOf s) (searchFree (stemOf s) used 0 (used.length + 1))
               :: used) := rfl

lemma writerAux_paths (outDir : List Char) (stemOf : String → List Char)
    (chunksOf : String → List (List Char)) :
    ∀ (streams : List String) (used : List (List Char)),
      (∀ p ∈ (writerAux outDir stemOf chunksOf streams used).map Prod.fst,
        ∃ c, p = outDir ++ c ++ txtExt ∧ c ∉ used) ∧
      ((writerAux outDir stemOf chunksOf streams used).map Prod.fst).Nodup := by
  intro streams
  induction streams with
  | nil =>
    intro used
    refine ⟨?_, by simp [writerAux]⟩
    intro p hp
    simp [writerAux] at hp
  | cons s rest ih =>
    intro used
    rw [writerAux_cons, List.map_cons]
    obtain ⟨ihmem, ihnd⟩ :=
      ih (candidateAt (stemOf s) (searchFree (stemOf s) used 0 (used.length + 1)) :: used)
    have hfresh := unique_output_path_fresh (stemOf s) used
    refine ⟨?_, ?_⟩
    · intro p hp
      rcases List.mem_cons.mp hp with hp | hp
      · exact ⟨_, hp, hfresh⟩
      · obtain ⟨c, hceq, hcmem⟩ := ihmem p hp
        exact ⟨c, hceq, fun hmem => hcmem (List.mem_cons_of_mem _ hmem)⟩
    · refine List.nodup_cons.mpr ⟨?_, ihnd⟩
      intro hmem
      obtain ⟨c, hceq, hcmem⟩ := ihmem _ hmem
      have h1 : outDir ++ (candidateAt (stemOf s)
            (searchFree (stemOf s) used 0 (used.length + 1)) ++ txtExt)
          = outDir ++ (c ++ txtExt) := by
        simpa [List.append_assoc] using hceq
      have h2 := List.append_cancel_right (List.append_cancel_left h1)
      exact hcmem (h2 ▸ List.mem_cons_self _ _)

lemma writerAux_length (outDir : List Char) (stemOf : String → List Char)
    (chunksOf : String → List (List Char)) :
    ∀ (streams : List String) (used : List (List Char)),
      (writerAux outDir stemOf chunksOf streams used).length = streams.length := by
  intro streams
  induction streams with
  | nil => intro used; rfl
  | cons s rest ih =>
    intro used
    rw [writerAux_cons, List.length_cons, ih, List.length_cons]

/-- C7: within one run of the writer the produced file paths are pairwise
distinct, one per stream of the bucket mapping; a used stem gets the
suffixes 2, 3, and so on until free — the chosen candidate is never one
already used in the run (and only the run's own set is consulted) — and two
distinct streams with the same sanitized name yield the plain stem path and
the stem path with suffix 2. -/
theorem unique_output_paths_spec :
    (∀ (outDir : List Char) (logGroupName : String) (fromPart toPart : List Char)
       (renderTs : Int → List Char) (buckets : List (String × List LogEv)),
      ((write_event_files outDir logGroupName fromPart toPart renderTs buckets).map
        Prod.fst).Nodup ∧
      (write_event_files outDir logGroupName fromPart toPart renderTs buckets).length
        = (sortedKeys buckets).length) ∧
    (∀ (stem : List Char) (used : List (List Char)),
      candidateAt stem (searchFree stem used 0 (used.length + 1)) ∉ used) ∧
    (write_event_files [] "g" "F".data "T".data (fun _ => [])
        [("a b", []), ("a/b", [])]).map Prod.fst
      = ["g_F-T_a_b.txt".data, "g_F-T_a_b_2.txt".data] := by
  refine ⟨?_, unique_output_path_fresh, ?_⟩
  · intro outDir logGroupName fromPart toPart renderTs buckets
    exact ⟨(writerAux_paths _ _ _ _ _).2, writerAux_length _ _ _ _ _⟩
  · have hkeys : sortedKeys [("a b", ([] : List LogEv)), ("a/b", [])] = ["a b", "a/b"] := by
      simp [sortedKeys, List.mergeSort, strLeb, lexLeChars]
    rw [write_event_files, hkeys]
    decide

/-- C9 counterexample: writes are not whole-file.  The writer performs one
`handle.write` per event line into the open file; modelling an I/O abort as
stopping after any prefix of those writes, a stream with two events has an
abort state in which the file holds exactly its first line — neither empty
nor the full content, but a proper prefix of the stream's event lines. -/
theorem write_whole_file_counterexample :
    ¬ (∀ k ≤ (fileChunks (fun _ => "T".data)
          [⟨0, 0, "a", "m1"⟩, ⟨1, 0, "b", "m2"⟩]).length,
        contentAfter (fileChunks (fun _ => "T".data)
          [⟨0, 0, "a", "m1"⟩, ⟨1, 0, "b", "m2"⟩]) k = []
        ∨ contentAfter (fileChunks (fun _ => "T".data)
            [⟨0, 0, "a", "m1"⟩, ⟨1, 0, "b", "m2"⟩]) k
          = fullContent (fileChunks (fun _ => "T".data)
              [⟨0, 0, "a", "m1"⟩, ⟨1, 0, "b", "m2"⟩])) := by
  intro h
  have hch : fileChunks (fun _ => "T".data) [⟨0, 0, "a", "m1"⟩, ⟨1, 0, "b", "m2"⟩]
      = ["T : m1\n".data, "T : m2\n".data] := by
    simp [fileChunks, sortEvents, List.mergeSort, logEvLe, lexLeChars, eventLine]
  have h1 := h 1 (by rw [hch]; decide)
  rw [hch] at h1
  rcases h1 with h1 | h1 <;> exact absurd h1 (by decide)

/-- C9 amended: writes are per-line, not whole-file.  At every abort point
the interrupted file holds the concatenation of its first `k` event lines —
always a prefix of its full content, the full content being reached at the
final write — and the run's file paths are pairwise distinct, so writing a
later file never touches an already-completed file, which remains complete
and in place. -/
theorem write_partial_prefix_spec :
    (∀ (renderTs : Int → List Char) (events : List LogEv) (k : Nat),
      contentAfter (fileChunks renderTs events) k
          ++ ((fileChunks renderTs events).drop k).flatten
        = fullContent (fileChunks renderTs events)) ∧
    (∀ (outDir : List Char) (logGroupName : String) (fromPart toPart : List Char)
       (renderTs : Int → List Char) (buckets : List (String × List LogEv)),
      ((write_event_files outDir logGroupName fromPart toPart renderTs buckets).map
        Prod.fst).Nodup) := by
  constructor
  · intro renderTs events k
    rw [contentAfter, fullContent, ← List.flatten_append, List.take_append_drop]
  · intro outDir logGroupName fromPart toPart renderTs buckets
    exact (writerAux_paths _ _ _ _ _).2

end CloudwatchGet
